import Mathlib

/-!
Verification of the chunked-summarization pipeline of the NovelSummary
repository (`src/index.js`).

Texts (JS strings) are modelled as `List Char`.  The two core functions are

* `chunkText` — `function chunkText(s, chunkSize = 6000)`: walks `s` in
  fixed windows of `chunkSize` characters (`s.slice(i, i + chunkSize)` with
  `i += chunkSize`);
* `summarizeLongText` — chunks the input, issues one LLM call per chunk in
  index order (prompt built from the chunk and its 1-based ordinal), trims
  each response, then issues one synthesis call on the summaries joined by
  a newline, returning the trimmed synthesis response.

The LLM provider (`ai.models.generateContent`) is modelled as an oracle
`gen : LLMCall → Except String (List Char)`; the embedding additionally
returns the trace of calls issued, in order, so that call counts, call
order and fail-fast behaviour are observable.
-/

/-- One iteration of the `for (let i = 0; i < s.length; i += chunkSize)`
loop of `chunkText`, with explicit fuel (one unit per loop iteration):
`none` means the fuel was exhausted, i.e. the loop has not terminated
within `fuel` iterations.  For `chunkSize = 0` and a non-empty `s` the JS
loop never advances `i`, and correspondingly no amount of fuel suffices. -/
def chunkTextLoop : Nat → List Char → Nat → Option (List (List Char))
  | _, [], _ => some []
  | 0, _ :: _, _ => none
  | fuel + 1, c :: cs, chunkSize =>
      (chunkTextLoop fuel ((c :: cs).drop chunkSize) chunkSize).map
        (fun r => (c :: cs).take chunkSize :: r)

/-- `function chunkText(s, chunkSize = 6000)` from `src/index.js`: the value
the loop produces when it terminates.  `s.length` units of fuel are enough
whenever `chunkSize > 0` (proved below), so on that domain this is exactly
the JS function. -/
def chunkText (s : List Char) (chunkSize : Nat) : List (List Char) :=
  (chunkTextLoop s.length s chunkSize).getD []

/-- The character class removed by JavaScript `String.prototype.trim`:
ASCII whitespace, line terminators, NBSP and the BOM (the Unicode space
separators other than NBSP are omitted from the model; none of them can be
produced by the templates below). -/
def isJsWhitespace (c : Char) : Bool :=
  c = ' ' || c = '\t' || c = '\n' || c = '\r' ||
    c = Char.ofNat 11 || c = Char.ofNat 12 ||
    c = Char.ofNat 160 || c = Char.ofNat 0xFEFF

/-- `resp.text.trim()`: strip leading and trailing whitespace. -/
def jsTrim (s : List Char) : List Char :=
  ((s.dropWhile isJsWhitespace).reverse.dropWhile isJsWhitespace).reverse

/-- One call to `ai.models.generateContent({ model, contents })`. -/
structure LLMCall where
  model : List Char
  contents : List Char
deriving DecidableEq, Repr

/-- The model identifier used for every call in `src/index.js`. -/
def geminiModel : List Char := "gemini-2.5-flash".toList

/-- Text of the per-chunk template before the interpolated `${i + 1}`. -/
def segBefore : List Char := "\nYou are summarizing part ".toList

/-- Text of the per-chunk template between `${i + 1}` and `${chunks[i]}`. -/
def segBetween : List Char :=
  ".\nWrite 5-8 bullet points covering major events, characters, emotions, clues:\n\n".toList

/-- Text of the per-chunk template after `${chunks[i]}`. -/
def segAfter : List Char := "\n".toList

/-- The `prompt` template literal built for chunk `i` (0-based) inside the
loop of `summarizeLongText`. -/
def segPrompt (i : Nat) (chunk : List Char) : List Char :=
  segBefore ++ (Nat.repr (i + 1)).toList ++ segBetween ++ chunk ++ segAfter

/-- Text of the synthesis template before `${chunkSummaries.join('\n')}`. -/
def synthBefore : List Char :=
  "\nCombine all summaries into a final chapter summary:\n\n".toList

/-- Text of the synthesis template after the interpolated join. -/
def synthAfter : List Char := "\n    ".toList

/-- `chunkSummaries.join('\n')`. -/
def joinNL (xs : List (List Char)) : List Char := List.intercalate ['\n'] xs

/-- The `contents` of the final `generateContent` call of
`summarizeLongText`. -/
def synthPrompt (joined : List Char) : List Char :=
  synthBefore ++ joined ++ synthAfter

/-- The per-chunk loop of `summarizeLongText`, starting at loop index `i`:
issues one `generateContent` call per chunk, pushing the trimmed response,
and stops at the first failing call.  Returns the list of calls issued (in
order) together with either the collected summaries or the first error. -/
def summarizeChunksAux (gen : LLMCall → Except String (List Char)) :
    Nat → List (List Char) → List LLMCall × Except String (List (List Char))
  | _, [] => ([], Except.ok [])
  | i, chunk :: rest =>
    let call : LLMCall := ⟨geminiModel, segPrompt i chunk⟩
    match gen call with
    | Except.error e => ([call], Except.error e)
    | Except.ok t =>
      let r := summarizeChunksAux gen (i + 1) rest
      (call :: r.1, r.2.map (fun sums => jsTrim t :: sums))

/-- `async function summarizeLongText(fullText)` from `src/index.js`,
with the provider `ai.models.generateContent` abstracted as the oracle
`gen` and the issued calls returned as an observable trace.  `chunkText`
is applied with its default `chunkSize = 6000`; the loop summarizes the
chunks in index order; then one synthesis call is issued on the summaries
joined by a newline and its trimmed response is the result.  A rejected
provider call propagates as `Except.error` (nothing is caught). -/
def summarizeLongText (gen : LLMCall → Except String (List Char))
    (fullText : List Char) : List LLMCall × Except String (List Char) :=
  let chunks := chunkText fullText 6000
  let r := summarizeChunksAux gen 0 chunks
  match r.2 with
  | Except.error e => (r.1, Except.error e)
  | Except.ok chunkSummaries =>
    let finalCall : LLMCall := ⟨geminiModel, synthPrompt (joinNL chunkSummaries)⟩
    match gen finalCall with
    | Except.error e => (r.1 ++ [finalCall], Except.error e)
    | Except.ok t => (r.1 ++ [finalCall], Except.ok (jsTrim t))

/-- The call issued for the chunk at index `j` of a chunk list. -/
def chunkCallAt (j : Nat) (chunks : List (List Char)) : LLMCall :=
  ⟨geminiModel, segPrompt j (chunks.getD j [])⟩

/-- The call issued for the chunk at position `j` of a chunk list handed to
`summarizeChunksAux` with starting loop index `i`. -/
def chunkCallFrom (i j : Nat) (chunks : List (List Char)) : LLMCall :=
  ⟨geminiModel, segPrompt (i + j) (chunks.getD j [])⟩

/-- A provider stub that always succeeds, answering `"  ok\n"` (whitespace
around the payload, so that trimming is observable). -/
def genOk : LLMCall → Except String (List Char) :=
  fun _ => Except.ok (' ' :: ' ' :: 'o' :: 'k' :: '\n' :: [])

/-- A provider stub that always fails. -/
def genBoom : LLMCall → Except String (List Char) :=
  fun _ => Except.error "boom"

lemma chunkTextLoop_eq_some (m : Nat) (hm : 0 < m) (s : List Char) :
    ∀ fuel, s.length ≤ fuel → chunkTextLoop fuel s m = some (chunkText s m) := by
  intro fuel hs
  match s, fuel with
  | [], fuel =>
    cases fuel <;> simp [chunkTextLoop, chunkText]
  | c :: cs, 0 =>
    rw [List.length_cons] at hs
    omega
  | c :: cs, n + 1 =>
    have ih := chunkTextLoop_eq_some m hm ((c :: cs).drop m)
    have hdrop : ((c :: cs).drop m).length ≤ n := by
      rw [List.length_cons] at hs
      simp only [List.length_drop, List.length_cons]
      omega
    have hdrop' : ((c :: cs).drop m).length ≤ cs.length := by
      simp only [List.length_drop, List.length_cons]
      omega
    have h₁ : chunkTextLoop (n + 1) (c :: cs) m
        = (chunkTextLoop n ((c :: cs).drop m) m).map
            (fun r => (c :: cs).take m :: r) := rfl
    have h₂ : chunkTextLoop (cs.length + 1) (c :: cs) m
        = (chunkTextLoop cs.length ((c :: cs).drop m) m).map
            (fun r => (c :: cs).take m :: r) := rfl
    rw [h₁, ih _ hdrop]
    show _ = some ((chunkTextLoop (c :: cs).length (c :: cs) m).getD [])
    rw [List.length_cons, h₂, ih _ hdrop']
    rfl
termination_by s.length
decreasing_by
  simp only [List.length_drop, List.length_cons]
  omega

lemma chunkText_nil (m : Nat) : chunkText [] m = [] := rfl

lemma chunkText_cons (c : Char) (cs : List Char) (m : Nat) (hm : 0 < m) :
    chunkText (c :: cs) m
      = (c :: cs).take m :: chunkText ((c :: cs).drop m) m := by
  have hdrop' : ((c :: cs).drop m).length ≤ cs.length := by
    simp only [List.length_drop, List.length_cons]
    omega
  show (chunkTextLoop (c :: cs).length (c :: cs) m).getD [] = _
  rw [List.length_cons]
  show ((chunkTextLoop cs.length ((c :: cs).drop m) m).map
      (fun r => (c :: cs).take m :: r)).getD [] = _
  rw [chunkTextLoop_eq_some m hm _ _ hdrop']
  rfl

lemma chunkText_flatten (s : List Char) (m : Nat) (hm : 0 < m) :
    (chunkText s m).flatten = s := by
  match s with
  | [] => simp [chunkText_nil]
  | c :: cs =>
    rw [chunkText_cons c cs m hm]
    have ih := chunkText_flatten ((c :: cs).drop m) m hm
    simp only [List.flatten_cons, ih, List.take_append_drop]
termination_by s.length
decreasing_by
  simp only [List.length_drop, List.length_cons]
  omega

lemma chunkText_length (s : List Char) (m : Nat) (hm : 0 < m) :
    (chunkText s m).length = (s.length + m - 1) / m := by
  match s with
  | [] =>
    rw [chunkText_nil]
    simp only [List.length_nil, Nat.zero_add]
    exact (Nat.div_eq_of_lt (by omega)).symm
  | c :: cs =>
    rw [chunkText_cons c cs m hm]
    have ih := chunkText_length ((c :: cs).drop m) m hm
    simp only [List.length_cons, ih, List.length_drop]
    rcases le_or_lt (cs.length + 1) m with hle | hlt
    · have h0 : cs.length + 1 - m = 0 := by omega
      rw [h0]
      have hl : (cs.length + 1 + m - 1) / m = 1 :=
        Nat.div_eq_of_lt_le (by omega) (by omega)
      have hr : (0 + m - 1) / m = 0 := Nat.div_eq_of_lt (by omega)
      omega
    · have harith : cs.length + 1 + m - 1 = (cs.length + 1 - m + m - 1) + m := by
        omega
      rw [harith, Nat.add_div_right _ hm]
termination_by s.length
decreasing_by
  simp only [List.length_drop, List.length_cons]
  omega

lemma chunkText_ne_nil (s : List Char) (m : Nat) (hm : 0 < m) (hs : s ≠ []) :
    chunkText s m ≠ [] := by
  match s with
  | [] => exact absurd rfl hs
  | c :: cs => rw [chunkText_cons c cs m hm]; exact List.cons_ne_nil _ _

lemma chunkText_of_length_le (s : List Char) (m : Nat) (hm : 0 < m)
    (hs : s ≠ []) (hle : s.length ≤ m) : chunkText s m = [s] := by
  match s with
  | [] => exact absurd rfl hs
  | c :: cs =>
    rw [chunkText_cons c cs m hm, List.take_of_length_le hle,
      List.drop_eq_nil_of_le hle, chunkText_nil]

lemma chunkText_sizes (s : List Char) (m : Nat) (hm : 0 < m) (hs : s ≠ []) :
    (∀ c ∈ (chunkText s m).dropLast, c.length = m) ∧
      ∃ last, (chunkText s m).getLast? = some last ∧
        last.length = (if s.length % m = 0 then m else s.length % m) := by
  rcases le_or_lt s.length m with hle | hlt
  · rw [chunkText_of_length_le s m hm hs hle]
    refine ⟨by simp, s, by simp, ?_⟩
    rcases Nat.lt_or_ge s.length m with hlt' | hge
    · rw [Nat.mod_eq_of_lt hlt']
      have : s.length ≠ 0 := by
        simpa using (List.length_pos.mpr hs).ne'
      simp [this]
    · have heq : s.length = m := Nat.le_antisymm hle hge
      simp [heq]
  · match s with
    | [] => exact absurd rfl hs
    | c :: cs =>
      simp only [List.length_cons] at hlt
      rw [chunkText_cons c cs m hm]
      have hdne : (c :: cs).drop m ≠ [] := by
        have : ((c :: cs).drop m).length ≠ 0 := by
          simp only [List.length_drop, List.length_cons]
          omega
        exact fun h => this (by rw [h]; rfl)
      have ih := chunkText_sizes ((c :: cs).drop m) m hm hdne
      have hrne : chunkText ((c :: cs).drop m) m ≠ [] :=
        chunkText_ne_nil _ m hm hdne
      constructor
      · intro x hx
        rw [List.dropLast_cons_of_ne_nil hrne] at hx
        rcases List.mem_cons.mp hx with h | h
        · subst h
          simp only [List.length_take, List.length_cons]
          omega
        · exact ih.1 x h
      · obtain ⟨last, hlast, hlen⟩ := ih.2
        refine ⟨last, ?_, ?_⟩
        · rw [show ((c :: cs).take m :: chunkText ((c :: cs).drop m) m)
              = [(c :: cs).take m] ++ chunkText ((c :: cs).drop m) m from rfl,
            List.getLast?_append_of_ne_nil _ hrne]
          exact hlast
        · rw [hlen, List.length_drop, List.length_cons]
          have hmod : (cs.length + 1) % m = (cs.length + 1 - m) % m :=
            Nat.mod_eq_sub_mod (by omega)
          rw [hmod]
termination_by s.length
decreasing_by
  simp only [List.length_drop, List.length_cons]
  omega

lemma chunkText_append_of_length_eq (a b : List Char) (m : Nat)
    (hm : 0 < m) (ha : a.length = m) :
    chunkText (a ++ b) m = a :: chunkText b m := by
  match a with
  | [] => rw [List.length_nil] at ha; omega
  | c :: cs =>
    have h₁ : (c :: cs) ++ b = c :: (cs ++ b) := rfl
    rw [h₁, chunkText_cons c (cs ++ b) m hm, ← h₁, ← ha,
      List.take_left, List.drop_left]

lemma chunkCallFrom_zero (j : Nat) (chunks : List (List Char)) :
    chunkCallFrom 0 j chunks = chunkCallAt j chunks := by
  simp [chunkCallFrom, chunkCallAt]

lemma chunkCallFrom_succ (i j : Nat) (c : List Char) (rest : List (List Char)) :
    chunkCallFrom i (j + 1) (c :: rest) = chunkCallFrom (i + 1) j rest := by
  simp only [chunkCallFrom, List.getD_cons_succ]
  congr 2
  omega

lemma chunkCallFrom_succ_fun (i : Nat) (c : List Char) (rest : List (List Char)) :
    (fun j => chunkCallFrom i (j + 1) (c :: rest))
      = fun j => chunkCallFrom (i + 1) j rest := by
  funext j
  exact chunkCallFrom_succ i j c rest

lemma range_map_cons {α : Type} (n : Nat) (g : Nat → α) :
    (List.range (n + 1)).map g = g 0 :: (List.range n).map (fun j => g (j + 1)) := by
  rw [List.range_succ_eq_map, List.map_cons, List.map_map]
  rfl

lemma summarizeChunksAux_ok (gen : LLMCall → Except String (List Char)) :
    ∀ (chunks : List (List Char)) (i : Nat) (tr : List LLMCall)
      (sums : List (List Char)),
      summarizeChunksAux gen i chunks = (tr, Except.ok sums) →
        tr = (List.range chunks.length).map (fun j => chunkCallFrom i j chunks) ∧
        sums.length = chunks.length ∧
        ∀ k, k < chunks.length →
          ∃ t, gen (chunkCallFrom i k chunks) = Except.ok t ∧
            sums.get? k = some (jsTrim t) := by
  intro chunks
  induction chunks with
  | nil =>
    intro i tr sums h
    simp only [summarizeChunksAux] at h
    obtain ⟨htr, hsums⟩ := Prod.mk.injEq .. ▸ h
    cases h
    refine ⟨rfl, rfl, ?_⟩
    intro k hk
    simp at hk
  | cons c rest ih =>
    intro i tr sums h
    simp only [summarizeChunksAux] at h
    cases hg : gen ⟨geminiModel, segPrompt i c⟩ with
    | error e => rw [hg] at h; cases h
    | ok t =>
      rw [hg] at h
      cases haux : (summarizeChunksAux gen (i + 1) rest).2 with
      | error e =>
        rw [haux] at h
        cases h
      | ok sums' =>
        rw [haux] at h
        obtain ⟨htr, hsums⟩ := Prod.mk.injEq .. ▸ h
        have hrec : summarizeChunksAux gen (i + 1) rest
            = ((summarizeChunksAux gen (i + 1) rest).1, Except.ok sums') := by
          rw [← haux]
        obtain ⟨htr', hlen', hget'⟩ := ih (i + 1) _ sums' hrec
        cases h
        refine ⟨?_, ?_, ?_⟩
        · rw [List.length_cons, range_map_cons]
          have h0 : chunkCallFrom i 0 (c :: rest) = ⟨geminiModel, segPrompt i c⟩ := by
            simp [chunkCallFrom]
          rw [h0, chunkCallFrom_succ_fun, ← htr']
        · simp [hlen']
        · intro k hk
          match k with
          | 0 =>
            refine ⟨t, ?_, rfl⟩
            have h0 : chunkCallFrom i 0 (c :: rest) = ⟨geminiModel, segPrompt i c⟩ := by
              simp [chunkCallFrom]
            rw [h0]
            exact hg
          | k + 1 =>
            rw [List.length_cons] at hk
            obtain ⟨u, hu, hsu⟩ := hget' k (by omega)
            exact ⟨u, by rwa [chunkCallFrom_succ], hsu⟩

lemma summarizeChunksAux_failfast (gen : LLMCall → Except String (List Char)) :
    ∀ (chunks : List (List Char)) (i k : Nat) (e : String),
      k < chunks.length →
      (∀ j, j < k → ∃ t, gen (chunkCallFrom i j chunks) = Except.ok t) →
      gen (chunkCallFrom i k chunks) = Except.error e →
      summarizeChunksAux gen i chunks
        = ((List.range (k + 1)).map (fun j => chunkCallFrom i j chunks),
           Except.error e) := by
  intro chunks
  induction chunks with
  | nil =>
    intro i k e hk
    simp at hk
  | cons c rest ih =>
    intro i k e hk hok herr
    match k with
    | 0 =>
      have h0 : chunkCallFrom i 0 (c :: rest) = ⟨geminiModel, segPrompt i c⟩ := by
        simp [chunkCallFrom]
      rw [h0] at herr
      simp only [summarizeChunksAux, herr]
      rw [show List.range 1 = [0] from rfl]
      simp [h0]
    | k + 1 =>
      obtain ⟨t, ht⟩ := hok 0 (by omega)
      have h0 : chunkCallFrom i 0 (c :: rest) = ⟨geminiModel, segPrompt i c⟩ := by
        simp [chunkCallFrom]
      rw [h0] at ht
      have hok' : ∀ j, j < k → ∃ u, gen (chunkCallFrom (i + 1) j rest) = Except.ok u := by
        intro j hj
        obtain ⟨u, hu⟩ := hok (j + 1) (by omega)
        rw [chunkCallFrom_succ] at hu
        exact ⟨u, hu⟩
      have herr' : gen (chunkCallFrom (i + 1) k rest) = Except.error e := by
        rw [← chunkCallFrom_succ]
        exact herr
      rw [List.length_cons] at hk
      have hrec := ih (i + 1) k e (by omega) hok' herr'
      simp only [summarizeChunksAux, ht, hrec]
      conv_rhs => rw [range_map_cons]
      rw [h0, chunkCallFrom_succ_fun]
      simp [Except.map]

lemma summarizeChunksAux_get?_of_ok (gen : LLMCall → Except String (List Char)) :
    ∀ (chunks : List (List Char)) (i k : Nat),
      k < chunks.length →
      (∀ j, j < k → ∃ t, gen (chunkCallFrom i j chunks) = Except.ok t) →
      (summarizeChunksAux gen i chunks).1.get? k = some (chunkCallFrom i k chunks) := by
  intro chunks
  induction chunks with
  | nil =>
    intro i k hk
    simp at hk
  | cons c rest ih =>
    intro i k hk hok
    have h0 : chunkCallFrom i 0 (c :: rest) = ⟨geminiModel, segPrompt i c⟩ := by
      simp [chunkCallFrom]
    match k with
    | 0 =>
      rw [h0]
      cases hg : gen ⟨geminiModel, segPrompt i c⟩ <;>
        simp [summarizeChunksAux, hg]
    | k + 1 =>
      obtain ⟨t, ht⟩ := hok 0 (by omega)
      rw [h0] at ht
      have hok' : ∀ j, j < k → ∃ u, gen (chunkCallFrom (i + 1) j rest) = Except.ok u := by
        intro j hj
        obtain ⟨u, hu⟩ := hok (j + 1) (by omega)
        rw [chunkCallFrom_succ] at hu
        exact ⟨u, hu⟩
      rw [List.length_cons] at hk
      have hrec := ih (i + 1) k (by omega) hok'
      rw [chunkCallFrom_succ]
      simp only [summarizeChunksAux, ht]
      simpa using hrec

lemma summarizeLongText_of_aux_ok (gen : LLMCall → Except String (List Char))
    (s : List Char) (tr : List LLMCall) (sums : List (List Char))
    (h : summarizeChunksAux gen 0 (chunkText s 6000) = (tr, Except.ok sums)) :
    summarizeLongText gen s
      = (tr ++ [⟨geminiModel, synthPrompt (joinNL sums)⟩],
         (gen ⟨geminiModel, synthPrompt (joinNL sums)⟩).map jsTrim) := by
  simp only [summarizeLongText, h]
  cases hg : gen ⟨geminiModel, synthPrompt (joinNL sums)⟩ <;> simp [Except.map, hg]

lemma summarizeLongText_of_aux_err (gen : LLMCall → Except String (List Char))
    (s : List Char) (tr : List LLMCall) (e : String)
    (h : summarizeChunksAux gen 0 (chunkText s 6000) = (tr, Except.error e)) :
    summarizeLongText gen s = (tr, Except.error e) := by
  simp only [summarizeLongText, h]

lemma jsTrim_decomp (t : List Char) :
    ∃ p q, t = p ++ jsTrim t ++ q ∧
      p.all isJsWhitespace = true ∧ q.all isJsWhitespace = true := by
  refine ⟨t.takeWhile isJsWhitespace,
    ((t.dropWhile isJsWhitespace).reverse.takeWhile isJsWhitespace).reverse,
    ?_, ?_, ?_⟩
  · have hu : (t.dropWhile isJsWhitespace).reverse.takeWhile isJsWhitespace
        ++ (t.dropWhile isJsWhitespace).reverse.dropWhile isJsWhitespace
        = (t.dropWhile isJsWhitespace).reverse :=
      List.takeWhile_append_dropWhile _ _
    have h2 : jsTrim t
          ++ ((t.dropWhile isJsWhitespace).reverse.takeWhile isJsWhitespace).reverse
        = t.dropWhile isJsWhitespace := by
      rw [jsTrim, ← List.reverse_append, hu, List.reverse_reverse]
    conv_lhs => rw [← List.takeWhile_append_dropWhile (p := isJsWhitespace) (l := t)]
    rw [List.append_assoc, h2]
  · rw [List.all_eq_true]
    intro x hx
    exact List.mem_takeWhile_imp hx
  · rw [List.all_eq_true]
    intro x hx
    rw [List.mem_reverse] at hx
    exact List.mem_takeWhile_imp hx

/-- C2: chunking is lossless — for every string `s` and every
`maxSize > 0`, concatenating the chunks returned by `chunkText s maxSize`
in index order reproduces `s` exactly. -/
theorem chunking_is_lossless (s : List Char) (maxSize : Nat)
    (hm : 0 < maxSize) : (chunkText s maxSize).flatten = s :=
  chunkText_flatten s maxSize hm

theorem chunking_is_lossless_witness :
    (chunkText ('a' :: 'b' :: 'c' :: []) 2).flatten = 'a' :: 'b' :: 'c' :: [] :=
  chunking_is_lossless ('a' :: 'b' :: 'c' :: []) 2 (by decide)

/-- C6: chunk count — for every string `s` of length `L` and every
`maxSize > 0`, `chunkText s maxSize` returns exactly `⌈L / maxSize⌉`
chunks (written `(L + maxSize - 1) / maxSize` in natural division), and in
particular `0` chunks — not one empty chunk — when `L = 0`. -/
theorem chunk_count_is_ceil (s : List Char) (maxSize : Nat)
    (hm : 0 < maxSize) :
    (chunkText s maxSize).length = (s.length + maxSize - 1) / maxSize ∧
      (chunkText ([] : List Char) maxSize).length = 0 :=
  ⟨chunkText_length s maxSize hm, by rw [chunkText_nil]; rfl⟩

theorem chunk_count_is_ceil_witness :
    (chunkText ('a' :: 'b' :: 'c' :: []) 2).length
        = (('a' :: 'b' :: 'c' :: []).length + 2 - 1) / 2 ∧
      (chunkText ([] : List Char) 2).length = 0 :=
  chunk_count_is_ceil ('a' :: 'b' :: 'c' :: []) 2 (by decide)

/-- C7: chunk size bound — for every string `s` of length `L > 0` and every
`maxSize > 0`, every chunk returned by `chunkText s maxSize` except
possibly the last has length exactly `maxSize`, and the last chunk has
length `L % maxSize`, or `maxSize` when `maxSize` divides `L`. -/
theorem chunk_size_bound (s : List Char) (maxSize : Nat)
    (hm : 0 < maxSize) (hs : 0 < s.length) :
    (∀ c ∈ (chunkText s maxSize).dropLast, c.length = maxSize) ∧
      ∃ last, (chunkText s maxSize).getLast? = some last ∧
        last.length
          = (if s.length % maxSize = 0 then maxSize else s.length % maxSize) :=
  chunkText_sizes s maxSize hm (List.length_pos.mp hs)

theorem chunk_size_bound_witness :
    ((chunkText ('a' :: 'b' :: 'c' :: []) 2).getLast?).map List.length = some 1 := by
  obtain ⟨hdrop, last, hl, hlen⟩ :=
    chunk_size_bound ('a' :: 'b' :: 'c' :: []) 2 (by decide) (by decide)
  rw [hl]
  simp [hlen]

/-- C10: termination of the Chunker under its precondition — for every
string `s` and every `chunkSize > 0` the loop of `chunkText` terminates
within `s.length` iterations (the loop index strictly increases by
`chunkSize` each iteration), and the precondition is load-bearing: with
`chunkSize = 0` and a non-empty `s`, no number of iterations completes the
loop. -/
theorem chunker_terminates :
    (∀ (s : List Char) (chunkSize : Nat), 0 < chunkSize →
      (chunkTextLoop s.length s chunkSize).isSome = true) ∧
    (∀ s : List Char, s ≠ [] → ∀ fuel : Nat, chunkTextLoop fuel s 0 = none) := by
  constructor
  · intro s m hm
    rw [chunkTextLoop_eq_some m hm s s.length (Nat.le_refl _)]
    rfl
  · intro s hs fuel
    match s with
    | [] => exact absurd rfl hs
    | c :: cs =>
      induction fuel with
      | zero => rfl
      | succ n ih =>
        show (chunkTextLoop n ((c :: cs).drop 0) 0).map _ = none
        rw [List.drop_zero, ih]
        rfl

theorem chunker_terminates_witness :
    (chunkTextLoop ('a' :: 'b' :: 'c' :: []).length ('a' :: 'b' :: 'c' :: []) 2).isSome
        = true ∧
      chunkTextLoop 7 ('a' :: []) 0 = none :=
  ⟨chunker_terminates.1 ('a' :: 'b' :: 'c' :: []) 2 (by decide),
   chunker_terminates.2 ('a' :: []) (by decide) 7⟩

/-- C1 counterexample: with an always-succeeding provider stub,
`summarizeLongText` applied to the empty string does NOT fail — it issues
exactly one call, namely the synthesis call built from zero chunk
summaries (`synthPrompt []`), and returns the trimmed synthesis response.
This refutes both parts of the claim: no InputError-class failure occurs,
and the Synthesizer is invoked with zero partial summaries. -/
theorem empty_input_rejection_cex :
    summarizeLongText genOk []
      = ([⟨geminiModel, synthPrompt []⟩], Except.ok ('o' :: 'k' :: [])) := rfl

/-- C1 (amended): for empty input the pipeline does not fail and the
Synthesizer is not skipped — `summarizeLongText gen ""` produces zero
chunks, issues exactly one provider call (the synthesis call over the
empty join of zero partial summaries) and returns that call's response,
trimmed; the code contains no empty-input rejection. -/
theorem empty_input_behavior (gen : LLMCall → Except String (List Char)) :
    summarizeLongText gen []
      = ([⟨geminiModel, synthPrompt []⟩],
         (gen ⟨geminiModel, synthPrompt []⟩).map jsTrim) := by
  have hL := summarizeLongText_of_aux_ok gen [] [] [] rfl
  simpa [joinNL] using hL

/-- C4: fail-fast — for every input that chunks into `n ≥ 1` chunks, if
the provider call for chunk index `k < n` fails while all earlier chunk
calls succeed, then the run consists of exactly the chunk calls
`0, …, k` (no chunk with index `> k` is summarized and the Synthesizer is
never invoked) and the failure propagates to the caller uncaught. -/
theorem fail_fast (gen : LLMCall → Except String (List Char))
    (s : List Char) (k : Nat) (e : String)
    (hk : k < (chunkText s 6000).length)
    (hok : ∀ j, j < k → ∃ t, gen (chunkCallAt j (chunkText s 6000)) = Except.ok t)
    (herr : gen (chunkCallAt k (chunkText s 6000)) = Except.error e) :
    summarizeLongText gen s
      = ((List.range (k + 1)).map (fun j => chunkCallAt j (chunkText s 6000)),
         Except.error e) := by
  have hok' : ∀ j, j < k →
      ∃ t, gen (chunkCallFrom 0 j (chunkText s 6000)) = Except.ok t := by
    intro j hj
    rw [chunkCallFrom_zero]
    exact hok j hj
  have herr' : gen (chunkCallFrom 0 k (chunkText s 6000)) = Except.error e := by
    rw [chunkCallFrom_zero]
    exact herr
  have hff := summarizeChunksAux_failfast gen (chunkText s 6000) 0 k e hk hok' herr'
  have hE := summarizeLongText_of_aux_err gen s _ e hff
  rw [hE]
  simp [chunkCallFrom_zero]

theorem fail_fast_witness :
    summarizeLongText genBoom ('a' :: [])
      = ([chunkCallAt 0 (chunkText ('a' :: []) 6000)], Except.error "boom") := by
  have h := fail_fast genBoom ('a' :: []) 0 "boom" (by decide)
    (fun j hj => absurd hj (by omega)) rfl
  simpa using h

/-- C5: order preservation — whenever the per-chunk phase succeeds with
summaries `sums`, the input presented to the Synthesizer is exactly the
partial summaries in chunk-index order joined by a single line break
(`synthPrompt (joinNL sums)`, the last call of the trace), where the
`k`-th element of `sums` is the trimmed response to the `k`-th chunk's
call; so for `i < j` the summary of chunk `i` precedes that of chunk `j`
in the synthesis prompt. -/
theorem order_preservation (gen : LLMCall → Except String (List Char))
    (s : List Char) (tr : List LLMCall) (sums : List (List Char))
    (h : summarizeChunksAux gen 0 (chunkText s 6000) = (tr, Except.ok sums)) :
    (summarizeLongText gen s).1.getLast?
        = some ⟨geminiModel, synthPrompt (joinNL sums)⟩ ∧
      sums.length = (chunkText s 6000).length ∧
      ∀ k, k < (chunkText s 6000).length →
        ∃ t, gen (chunkCallAt k (chunkText s 6000)) = Except.ok t ∧
          sums.get? k = some (jsTrim t) := by
  have hok := summarizeChunksAux_ok gen (chunkText s 6000) 0 tr sums h
  have hL := summarizeLongText_of_aux_ok gen s tr sums h
  refine ⟨?_, hok.2.1, ?_⟩
  · rw [hL]
    simp
  · intro k hk
    obtain ⟨t, ht, hs'⟩ := hok.2.2 k hk
    rw [chunkCallFrom_zero] at ht
    exact ⟨t, ht, hs'⟩

theorem order_preservation_witness :
    (summarizeLongText genOk ('a' :: [])).1.getLast?
      = some ⟨geminiModel, synthPrompt (joinNL [('o' :: 'k' :: [])])⟩ :=
  (order_preservation genOk ('a' :: [])
    [⟨geminiModel, segPrompt 0 ('a' :: [])⟩] [('o' :: 'k' :: [])] rfl).1

/-- C8: call count and order — for every input that chunks into `n`
chunks, a successful run issues exactly one provider call per chunk, in
strict chunk-index order (the `k`-th call of the trace is the `k`-th
chunk's call; the sequential loop issues them one at a time), followed by
exactly one synthesis call, for a total of `n + 1` provider calls. -/
theorem call_count_and_order (gen : LLMCall → Except String (List Char))
    (s : List Char) (tr : List LLMCall) (r : List Char)
    (h : summarizeLongText gen s = (tr, Except.ok r)) :
    tr.length = (chunkText s 6000).length + 1 ∧
      (∀ k, k < (chunkText s 6000).length →
        tr.get? k = some (chunkCallAt k (chunkText s 6000))) ∧
      ∃ sums, sums.length = (chunkText s 6000).length ∧
        tr.get? (chunkText s 6000).length
          = some ⟨geminiModel, synthPrompt (joinNL sums)⟩ := by
  cases haux : summarizeChunksAux gen 0 (chunkText s 6000) with
  | mk tr' res =>
    cases res with
    | error e =>
      have hE := summarizeLongText_of_aux_err gen s tr' e haux
      rw [hE] at h
      simp at h
    | ok sums =>
      have hL := summarizeLongText_of_aux_ok gen s tr' sums haux
      rw [hL] at h
      have htr : tr' ++ [⟨geminiModel, synthPrompt (joinNL sums)⟩] = tr :=
        congrArg Prod.fst h
      obtain ⟨htr', hlen, hget⟩ :=
        summarizeChunksAux_ok gen (chunkText s 6000) 0 tr' sums haux
      have hlen' : tr'.length = (chunkText s 6000).length := by
        rw [htr']
        simp
      refine ⟨?_, ?_, sums, hlen, ?_⟩
      · rw [← htr]
        simp [hlen']
      · intro k hk
        rw [← htr, List.get?_append (by omega), htr', List.get?_map,
          List.get?_range hk]
        simp [chunkCallFrom_zero]
      · rw [← htr, List.get?_append_right (by omega)]
        simp [hlen']

theorem call_count_and_order_witness :
    ([⟨geminiModel, segPrompt 0 ('a' :: [])⟩,
        ⟨geminiModel, synthPrompt ('o' :: 'k' :: [])⟩] : List LLMCall).length
      = (chunkText ('a' :: []) 6000).length + 1 :=
  (call_count_and_order genOk ('a' :: [])
    [⟨geminiModel, segPrompt 0 ('a' :: [])⟩,
     ⟨geminiModel, synthPrompt ('o' :: 'k' :: [])⟩]
    ('o' :: 'k' :: []) rfl).1

/-- C3 counterexample: in the two-chunk scenario (12000 identical
characters `'a'`, chunk size 6000, so the total chunk count is `2`) the
first per-chunk call's prompt is `segPrompt 0 (replicate 6000 'a')`, and
the character `'2'` does not occur anywhere in that prompt — so the total
chunk count `2` is not embedded in the prompt sent to the LLM, refuting
the claim that both the ordinal and the total are embedded. -/
theorem ordinal_and_total_cex :
    (chunkText (List.replicate 12000 'a') 6000).length = 2 ∧
      (summarizeLongText genOk (List.replicate 12000 'a')).1.get? 0
        = some ⟨geminiModel, segPrompt 0 (List.replicate 6000 'a')⟩ ∧
      ¬ ('2' ∈ segPrompt 0 (List.replicate 6000 'a')) := by
  have hrep : List.replicate 12000 'a'
      = List.replicate 6000 'a' ++ List.replicate 6000 'a' := by
    rw [← List.replicate_add]
  have hlenrep : (List.replicate 6000 'a' : List Char).length = 6000 :=
    List.length_replicate 6000 'a'
  have hne : (List.replicate 6000 'a' : List Char) ≠ [] := by
    intro h
    rw [h] at hlenrep
    exact absurd hlenrep (by decide)
  have hchunks : chunkText (List.replicate 12000 'a') 6000
      = [List.replicate 6000 'a', List.replicate 6000 'a'] := by
    rw [hrep, chunkText_append_of_length_eq _ _ _ (by omega) hlenrep,
      chunkText_of_length_le _ _ (by omega) hne (by rw [hlenrep])]
  have haux : summarizeChunksAux genOk 0
      [List.replicate 6000 'a', List.replicate 6000 'a']
      = ([⟨geminiModel, segPrompt 0 (List.replicate 6000 'a')⟩,
          ⟨geminiModel, segPrompt 1 (List.replicate 6000 'a')⟩],
         Except.ok [('o' :: 'k' :: []), ('o' :: 'k' :: [])]) := rfl
  refine ⟨by rw [hchunks]; rfl, ?_, ?_⟩
  · have hL := summarizeLongText_of_aux_ok genOk (List.replicate 12000 'a')
      _ _ (by rw [hchunks]; exact haux)
    rw [hL]
    rfl
  · intro hmem
    simp only [segPrompt, segBefore, segBetween, segAfter,
      List.mem_append, List.mem_replicate] at hmem
    rcases hmem with ((((h | h) | h) | h) | h)
    · revert h; decide
    · revert h; decide
    · revert h; decide
    · exact absurd h.2 (by decide)
    · revert h; decide

/-- C3 (amended): for every chunk whose earlier chunk calls all succeed,
the pipeline's `k`-th provider call is the chunk call for index `k`, and
its prompt embeds the 1-based ordinal `k + 1` (between the fixed template
pieces) — but not the total chunk count, which appears nowhere in the
per-chunk template. -/
theorem ordinal_embedded_in_prompt (gen : LLMCall → Except String (List Char))
    (s : List Char) (k : Nat)
    (hk : k < (chunkText s 6000).length)
    (hok : ∀ j, j < k → ∃ t, gen (chunkCallAt j (chunkText s 6000)) = Except.ok t) :
    (summarizeLongText gen s).1.get? k = some (chunkCallAt k (chunkText s 6000)) ∧
      chunkCallAt k (chunkText s 6000)
        = ⟨geminiModel,
            segBefore ++ (Nat.repr (k + 1)).toList ++ segBetween
              ++ (chunkText s 6000).getD k [] ++ segAfter⟩ := by
  constructor
  · have hok' : ∀ j, j < k →
        ∃ t, gen (chunkCallFrom 0 j (chunkText s 6000)) = Except.ok t := by
      intro j hj
      rw [chunkCallFrom_zero]
      exact hok j hj
    have hget := summarizeChunksAux_get?_of_ok gen (chunkText s 6000) 0 k hk hok'
    cases haux : summarizeChunksAux gen 0 (chunkText s 6000) with
    | mk tr' res =>
      rw [haux] at hget
      cases res with
      | error e =>
        have hE := summarizeLongText_of_aux_err gen s tr' e haux
        rw [hE]
        simpa [chunkCallFrom_zero] using hget
      | ok sums =>
        have hL := summarizeLongText_of_aux_ok gen s tr' sums haux
        rw [hL]
        have hlen' : tr'.length = (chunkText s 6000).length := by
          obtain ⟨htr', _, _⟩ :=
            summarizeChunksAux_ok gen (chunkText s 6000) 0 tr' sums haux
          rw [htr']
          simp
        rw [List.get?_append (by omega)]
        simpa [chunkCallFrom_zero] using hget
  · simp [chunkCallAt, segPrompt]

theorem ordinal_embedded_in_prompt_witness :
    (summarizeLongText genOk ('a' :: [])).1.get? 0
        = some (chunkCallAt 0 (chunkText ('a' :: []) 6000)) ∧
      chunkCallAt 0 (chunkText ('a' :: []) 6000)
        = ⟨geminiModel,
            segBefore ++ (Nat.repr 1).toList ++ segBetween
              ++ (chunkText ('a' :: []) 6000).getD 0 [] ++ segAfter⟩ :=
  ordinal_embedded_in_prompt genOk ('a' :: []) 0 (by decide)
    (fun j hj => absurd hj (by omega))

/-- C9: output normalization — (i) every chunk summary collected by the
per-chunk loop is exactly `jsTrim` of the raw model response for that
chunk; (ii) the final result of a successful run is exactly `jsTrim` of
the raw response to the last call issued (the synthesis call); and
(iii) `jsTrim` removes leading and trailing whitespace and applies no
other modification: the input is the output surrounded by two
all-whitespace affixes. -/
theorem output_normalization :
    (∀ (gen : LLMCall → Except String (List Char)) (i : Nat)
        (chunks : List (List Char)) (tr : List LLMCall)
        (sums : List (List Char)),
      summarizeChunksAux gen i chunks = (tr, Except.ok sums) →
      ∀ k, k < chunks.length →
        ∃ t, gen (chunkCallFrom i k chunks) = Except.ok t ∧
          sums.get? k = some (jsTrim t)) ∧
    (∀ (gen : LLMCall → Except String (List Char)) (s : List Char)
        (tr : List LLMCall) (r : List Char),
      summarizeLongText gen s = (tr, Except.ok r) →
      ∃ c t, tr.getLast? = some c ∧ gen c = Except.ok t ∧ r = jsTrim t) ∧
    (∀ t : List Char, ∃ p q, t = p ++ jsTrim t ++ q ∧
      p.all isJsWhitespace = true ∧ q.all isJsWhitespace = true) := by
  refine ⟨?_, ?_, jsTrim_decomp⟩
  · intro gen i chunks tr sums h k hk
    exact (summarizeChunksAux_ok gen chunks i tr sums h).2.2 k hk
  · intro gen s tr r h
    cases haux : summarizeChunksAux gen 0 (chunkText s 6000) with
    | mk tr' res =>
      cases res with
      | error e =>
        have hE := summarizeLongText_of_aux_err gen s tr' e haux
        rw [hE] at h
        simp at h
      | ok sums =>
        have hL := summarizeLongText_of_aux_ok gen s tr' sums haux
        rw [hL] at h
        have htr : tr' ++ [⟨geminiModel, synthPrompt (joinNL sums)⟩] = tr :=
          congrArg Prod.fst h
        have hres : (gen ⟨geminiModel, synthPrompt (joinNL sums)⟩).map jsTrim
            = Except.ok r := congrArg Prod.snd h
        cases hg : gen ⟨geminiModel, synthPrompt (joinNL sums)⟩ with
        | error e =>
          rw [hg] at hres
          simp [Except.map] at hres
        | ok t =>
          rw [hg] at hres
          refine ⟨⟨geminiModel, synthPrompt (joinNL sums)⟩, t, ?_, hg, ?_⟩
          · rw [← htr]
            simp
          · have := Except.ok.inj hres
            exact this.symm

theorem output_normalization_witness :
    ('o' :: 'k' :: []) = jsTrim (' ' :: ' ' :: 'o' :: 'k' :: '\n' :: []) ∧
      genOk ⟨geminiModel, synthPrompt ('o' :: 'k' :: [])⟩
        = Except.ok (' ' :: ' ' :: 'o' :: 'k' :: '\n' :: []) := by
  obtain ⟨c, t, h1, h2, h3⟩ := output_normalization.2.1 genOk ('a' :: [])
    [⟨geminiModel, segPrompt 0 ('a' :: [])⟩,
     ⟨geminiModel, synthPrompt ('o' :: 'k' :: [])⟩]
    ('o' :: 'k' :: []) rfl
  have hc : c = ⟨geminiModel, synthPrompt ('o' :: 'k' :: [])⟩ := by
    have hl : ([⟨geminiModel, segPrompt 0 ('a' :: [])⟩,
        ⟨geminiModel, synthPrompt ('o' :: 'k' :: [])⟩] : List LLMCall).getLast?
        = some ⟨geminiModel, synthPrompt ('o' :: 'k' :: [])⟩ := rfl
    rw [hl] at h1
    exact (Option.some.inj h1).symm
  subst hc
  have ht : t = ' ' :: ' ' :: 'o' :: 'k' :: '\n' :: [] := by
    have hg : genOk ⟨geminiModel, synthPrompt ('o' :: 'k' :: [])⟩
        = Except.ok (' ' :: ' ' :: 'o' :: 'k' :: '\n' :: []) := rfl
    rw [hg] at h2
    exact (Except.ok.inj h2).symm
  subst ht
  exact ⟨h3, rfl⟩
